import Mathlib

/-!
Shallow embedding of `cpp/include/cudf/fixed_point/fixed_point.hpp`
(namespace `cudf::fixed_point`) and proofs about its arithmetic.

Modelling conventions:
* `Rep` values (`int32_t` / `int64_t`) are embedded as unbounded `ℤ`.
  Signed overflow of `Rep` is undefined behaviour in the source language, so
  the claims below speak about the defined (non-overflowing) executions; the
  overflow predicates (`addition_overflow` &c.) are embedded with an explicit
  width parameter `w` and the exact `MIN`/`MAX` bounds of the width.
* C++ integer division truncates toward zero; it is embedded as `Int.tdiv`
  (Lean's `/` on `ℤ` is Euclidean division and is not used for source code).
* `detail::right_shift` divides by `std::pow(Rad, scale)`, which returns a
  binary64 `double`, so in the source the quotient is actually computed in
  floating-point arithmetic and then truncated by the `static_cast` in
  `detail::shift`.  For every `int32_t` value (and for every operand of
  magnitude below 2^53) that computation coincides with truncating integer
  division, and the embedding `right_shift` below uses exact truncating
  integer division.  The binary64 detour is modelled separately
  (`roundToMultiple`, `roundQuotToMultiple`, `right_shift_i64max_by10_via_double`)
  where the divergence at `int64_t` magnitudes is exhibited.
-/

namespace cudf

/-- Embedding of `enum class Radix : int32_t { BASE_2 = 2, BASE_10 = 10 }`. -/
inductive Radix where
  | BASE_2 : Radix
  | BASE_10 : Radix
deriving DecidableEq

/-- Numeric value of the radix enumerator. -/
def Radix.toInt : Radix → ℤ
  | .BASE_2 => 2
  | .BASE_10 => 10

/-- Embedding of `detail::right_shift<Rad>(val, scale)` for an integral
operand: `val / Rad^scale`, precondition `scale > 0` (asserted in the
source).  The source divides by `std::pow(Rad, scale)` (a binary64 value);
for operands of magnitude below 2^53 this equals truncating integer
division, which is what `Int.tdiv` computes.  The divergence of the binary64
path at `int64_t` magnitudes is treated separately below. -/
def right_shift (R : Radix) (val : ℤ) (scale : ℤ) : ℤ :=
  val.tdiv (R.toInt ^ scale.toNat)

/-- Embedding of `detail::left_shift<Rad>(val, scale)` for an integral
operand: `val * Rad^(-scale)`, precondition `scale < 0` (asserted in the
source). -/
def left_shift (R : Radix) (val : ℤ) (scale : ℤ) : ℤ :=
  val * R.toInt ^ (-scale).toNat

/-- Embedding of `detail::shift<Rad>(val, scale)` for an integral operand:
dispatches on the sign of `scale` exactly as the source does. -/
def shift (R : Radix) (val : ℤ) (scale : ℤ) : ℤ :=
  if scale = 0 then val
  else if 0 < scale then right_shift R val scale
  else left_shift R val scale

/-- Embedding of `struct scaled_integer<Rep>`: a pre-shifted value together
with a scale. -/
structure scaled_integer where
  value : ℤ
  scale : ℤ
deriving DecidableEq

/-- Embedding of `class fixed_point<Rep, Rad>`: the stored `_value` and
`_scale` fields (the compile-time radix is passed to the operations
explicitly). -/
structure fixed_point where
  value : ℤ
  scale : ℤ
deriving DecidableEq

/-- Embedding of the constructor `fixed_point(scaled_integer<Rep> s)`:
installs `value` and `scale` directly, with no shift. -/
def fixed_point.ofScaled (s : scaled_integer) : fixed_point :=
  { value := s.value, scale := s.scale }

/-- Embedding of the constructor `fixed_point(T value, scale_type scale)` for
an integral `T`: stores `shift<Rad>(value, scale)` and `scale`. -/
def fixed_point.ofValue (R : Radix) (v : ℤ) (s : ℤ) : fixed_point :=
  { value := shift R v s, scale := s }

/-- Embedding of `operator+`: align to the larger scale (right-shifting the
finer operand), add the aligned values, install via `scaled_integer`. -/
def fp_add (R : Radix) (lhs rhs : fixed_point) : fixed_point :=
  let rhsv := if lhs.scale > rhs.scale then shift R rhs.value (lhs.scale - rhs.scale) else rhs.value
  let lhsv := if lhs.scale < rhs.scale then shift R lhs.value (rhs.scale - lhs.scale) else lhs.value
  let scale := if lhs.scale > rhs.scale then lhs.scale else rhs.scale
  fixed_point.ofScaled { value := lhsv + rhsv, scale := scale }

/-- Embedding of `operator-`: same alignment as `operator+`, subtracting the
aligned values. -/
def fp_sub (R : Radix) (lhs rhs : fixed_point) : fixed_point :=
  let rhsv := if lhs.scale > rhs.scale then shift R rhs.value (lhs.scale - rhs.scale) else rhs.value
  let lhsv := if lhs.scale < rhs.scale then shift R lhs.value (rhs.scale - lhs.scale) else lhs.value
  let scale := if lhs.scale > rhs.scale then lhs.scale else rhs.scale
  fixed_point.ofScaled { value := lhsv - rhsv, scale := scale }

/-- Embedding of `operator*`: multiply the raw values, add the scales. -/
def fp_mul (R : Radix) (lhs rhs : fixed_point) : fixed_point :=
  fixed_point.ofScaled { value := lhs.value * rhs.value, scale := lhs.scale + rhs.scale }

/-- Embedding of `operator/`: divide the raw values with C++ (truncating)
integer division, subtract the scales. -/
def fp_div (R : Radix) (lhs rhs : fixed_point) : fixed_point :=
  fixed_point.ofScaled { value := lhs.value.tdiv rhs.value, scale := lhs.scale - rhs.scale }

/-- Embedding of `operator==`: align exactly as `operator+` does, then
compare the aligned values. -/
def fp_eq (R : Radix) (lhs rhs : fixed_point) : Bool :=
  let rhsv := if lhs.scale > rhs.scale then shift R rhs.value (lhs.scale - rhs.scale) else rhs.value
  let lhsv := if lhs.scale < rhs.scale then shift R lhs.value (rhs.scale - lhs.scale) else lhs.value
  rhsv == lhsv

/-- Embedding of the pre-increment `operator++`:
`*this = *this + fixed_point{1, scale_type{_scale}}`. -/
def fp_increment (R : Radix) (x : fixed_point) : fixed_point :=
  fp_add R x (fixed_point.ofValue R 1 x.scale)

/-- Embedding of the explicit conversion `operator U() const` for an integral
target `U = Rep`: `shift<Rad>(value, negate(scale))`. -/
def to_rep (R : Radix) (x : fixed_point) : ℤ :=
  shift R x.value (-x.scale)

/-- Embedding of `detail::shift<Rad>` for a floating operand, with binary64
arithmetic modelled as exact rational arithmetic (the rounding that real
binary64 performs is within the one-ulp slack the specification grants and
is not modelled here): a positive scale divides exactly in `ℚ`, a negative
scale multiplies. -/
def shift_f64 (R : Radix) (val : ℚ) (scale : ℤ) : ℚ :=
  if scale = 0 then val
  else if 0 < scale then val / (R.toInt : ℚ) ^ scale.toNat
  else val * (R.toInt : ℚ) ^ (-scale).toNat

/-- Embedding of the explicit conversion `operator U() const` for `U = double`
(`get()`), with binary64 modelled as exact rationals:
`shift<Rad>(double(value), negate(scale))`. -/
def to_f64 (R : Radix) (x : fixed_point) : ℚ :=
  shift_f64 R (x.value : ℚ) (-x.scale)

/-- Interpretation of a stored pair as the rational number it represents,
`value * Radix^scale` (section 3 of the specification: the data model). -/
def toRat (R : Radix) (x : fixed_point) : ℚ :=
  (x.value : ℚ) * (R.toInt : ℚ) ^ x.scale

/-- Smallest value of a `w`-bit two's-complement representation. -/
def repMin (w : ℕ) : ℤ := -(2 ^ (w - 1))

/-- Largest value of a `w`-bit two's-complement representation. -/
def repMax (w : ℕ) : ℤ := 2 ^ (w - 1) - 1

/-- Embedding of `addition_overflow<Rep>(lhs, rhs)`. -/
def addition_overflow (w : ℕ) (lhs rhs : ℤ) : Bool :=
  if rhs > 0 then decide (lhs > repMax w - rhs) else decide (lhs < repMin w - rhs)

/-- Embedding of `subtraction_overflow<Rep>(lhs, rhs)`. -/
def subtraction_overflow (w : ℕ) (lhs rhs : ℤ) : Bool :=
  if rhs > 0 then decide (lhs < repMin w + rhs) else decide (lhs > repMax w + rhs)

/-- Embedding of `division_overflow<Rep>(lhs, rhs)`. -/
def division_overflow (w : ℕ) (lhs rhs : ℤ) : Bool :=
  decide (lhs = repMin w ∧ rhs = -1)

/-- Embedding of `multiplication_overflow<Rep>(lhs, rhs)`; the divisions
`max / rhs` and `min / rhs` are C++ truncating divisions. -/
def multiplication_overflow (w : ℕ) (lhs rhs : ℤ) : Bool :=
  if rhs > 0 then decide (lhs > (repMax w).tdiv rhs ∨ lhs < (repMin w).tdiv rhs)
  else if rhs < -1 then decide (lhs > (repMin w).tdiv rhs ∨ lhs < (repMax w).tdiv rhs)
  else decide (rhs = -1 ∧ lhs = repMin w)

/-- Upper bound on one ulp of any finite binary64 number of magnitude `|q|`:
the ulp of a normal number is at most `|q| / 2^52`, and the ulp of a
subnormal number is `1 / 2^1074`. -/
def ulpBound (q : ℚ) : ℚ := |q| / 2 ^ 52 + 1 / 2 ^ 1074

/-- Modelled from the code: rounding an integer onto the binary64 grid whose
unit in the last place is `2^k` (round to nearest, ties to even).  This is
what the implicit `int64_t` to `double` conversion inside
`val / std::pow(Rad, scale)` does to `val` when `val` lies in a binade with
ulp `2^k`. -/
def roundToMultiple (k : ℕ) (n : ℤ) : ℤ :=
  let q := n / 2 ^ k
  let r := n % 2 ^ k
  if r * 2 < 2 ^ k then q * 2 ^ k
  else if (2 : ℤ) ^ k < r * 2 then (q + 1) * 2 ^ k
  else if q % 2 = 0 then q * 2 ^ k else (q + 1) * 2 ^ k

/-- Modelled from the code: the correctly rounded binary64 quotient
`num / den` on the grid with unit in the last place `2^k` (round to nearest,
ties to even), for positive `den`.  This is what the binary64 division in
`detail::right_shift` does when the true quotient lies in a binade with ulp
`2^k`. -/
def roundQuotToMultiple (k : ℕ) (num den : ℤ) : ℤ :=
  let d := den * 2 ^ k
  let q := num / d
  let r := num % d
  if r * 2 < d then q * 2 ^ k
  else if d < r * 2 then (q + 1) * 2 ^ k
  else if q % 2 = 0 then q * 2 ^ k else (q + 1) * 2 ^ k

/-- Modelled from the code: the value `detail::right_shift<BASE_10>` computes
for the `int64_t` operand `2^63 - 1` at scale `1`.  The source evaluates
`val / std::pow(10, 1)` in binary64: the implicit `int64_t` to `double`
conversion rounds `2^63 - 1` (binade `[2^62, 2^63)`, ulp `2^10`) to the
nearest representable `2^63`; the division by `10.0` rounds the true
quotient `2^63 / 10` (binade `[2^59, 2^60)`, ulp `2^7`) to the nearest
representable; the `static_cast` back in `detail::shift` truncates, which is
the identity here because that double is an integer. -/
def right_shift_i64max_by10_via_double : ℤ :=
  roundQuotToMultiple 7 (roundToMultiple 10 (2 ^ 63 - 1)) 10

/-- Helper: `shift` at a positive scale is `right_shift`. -/
theorem shift_of_pos (R : Radix) (v s : ℤ) (h : 0 < s) :
    shift R v s = right_shift R v s := by
  unfold shift
  rw [if_neg (by omega), if_pos h]

/-- Helper: `shift` at scale zero is the identity. -/
theorem shift_of_zero (R : Radix) (v : ℤ) : shift R v 0 = v := by
  unfold shift
  rw [if_pos rfl]

/-- Helper: `shift` at a negative scale is `left_shift`. -/
theorem shift_of_neg (R : Radix) (v s : ℤ) (h : s < 0) :
    shift R v s = left_shift R v s := by
  unfold shift
  rw [if_neg (by omega), if_neg (by omega)]

/-- Helper: lower bound of the representation is nonpositive. -/
theorem repMin_nonpos (w : ℕ) : repMin w ≤ 0 := by
  unfold repMin
  have : (0:ℤ) < 2 ^ (w - 1) := pow_pos (by norm_num) _
  omega

/-- Helper: upper bound of the representation is nonnegative. -/
theorem repMax_nonneg (w : ℕ) : 0 ≤ repMax w := by
  unfold repMax
  have : (0:ℤ) < 2 ^ (w - 1) := pow_pos (by norm_num) _
  omega

/-- Helper: two's-complement relation between the bounds. -/
theorem repMin_eq_neg_repMax_sub_one (w : ℕ) : repMin w = -(repMax w + 1) := by
  unfold repMin repMax
  ring

/-- Helper: for a nonnegative bound `M` and positive divisor `r`, exceeding
`M` is the same as exceeding the truncated quotient. -/
theorem lt_mul_iff_tdiv_lt {M r l : ℤ} (hM : 0 ≤ M) (hr : 0 < r) :
    M < l * r ↔ M.tdiv r < l := by
  rw [Int.tdiv_eq_ediv hM hr.le]
  simp only [← not_le]
  exact not_congr (Int.le_ediv_iff_mul_le hr).symm

/-- Helper: for a nonpositive bound `m` and positive divisor `r`, falling
below `m` is the same as falling below the truncated quotient. -/
theorem mul_lt_iff_lt_tdiv {m r l : ℤ} (hm : m ≤ 0) (hr : 0 < r) :
    l * r < m ↔ l < m.tdiv r := by
  have h := lt_mul_iff_tdiv_lt (M := -m) (l := -l) (r := r) (by omega) hr
  rw [neg_mul] at h
  rw [show m.tdiv r = -((-m).tdiv r) by rw [Int.neg_tdiv, neg_neg]]
  omega

/-- Helper: correctness of `addition_overflow` on in-range operands. -/
theorem addition_overflow_correct (w : ℕ) (l r : ℤ)
    (hl : repMin w ≤ l ∧ l ≤ repMax w) :
    addition_overflow w l r = true ↔ (l + r < repMin w ∨ repMax w < l + r) := by
  have h1 := repMin_nonpos w
  have h2 := repMax_nonneg w
  unfold addition_overflow
  split_ifs with h <;> simp only [decide_eq_true_eq] <;> omega

/-- Helper: correctness of `subtraction_overflow` on in-range operands. -/
theorem subtraction_overflow_correct (w : ℕ) (l r : ℤ)
    (hl : repMin w ≤ l ∧ l ≤ repMax w) :
    subtraction_overflow w l r = true ↔ (l - r < repMin w ∨ repMax w < l - r) := by
  have h1 := repMin_nonpos w
  have h2 := repMax_nonneg w
  unfold subtraction_overflow
  split_ifs with h <;> simp only [decide_eq_true_eq] <;> omega

/-- Helper: correctness of `multiplication_overflow` on an in-range left
operand. -/
theorem multiplication_overflow_correct (w : ℕ) (l r : ℤ)
    (hl : repMin w ≤ l ∧ l ≤ repMax w) :
    multiplication_overflow w l r = true ↔ (l * r < repMin w ∨ repMax w < l * r) := by
  have hmin := repMin_nonpos w
  have hmax := repMax_nonneg w
  have hrel := repMin_eq_neg_repMax_sub_one w
  unfold multiplication_overflow
  rcases lt_trichotomy r 0 with hr | rfl | hr
  · obtain ⟨s, rfl⟩ : ∃ s, r = -s := ⟨-r, (neg_neg r).symm⟩
    have hs : 0 < s := by omega
    rcases (show s = 1 ∨ 1 < s by omega) with rfl | hs1
    · rw [if_neg (by omega), if_neg (by omega)]
      simp only [decide_eq_true_eq]
      rw [show l * (-1 : ℤ) = -l by ring]
      simp only [true_and]
      omega
    · rw [if_neg (by omega), if_pos (by omega)]
      simp only [decide_eq_true_eq]
      have e1 := lt_mul_iff_tdiv_lt (M := repMax w) (l := -l) (r := s) hmax hs
      have e2 := mul_lt_iff_lt_tdiv (m := repMin w) (l := -l) (r := s) hmin hs
      rw [neg_mul] at e1 e2
      rw [mul_neg, Int.tdiv_neg, Int.tdiv_neg]
      omega
  · rw [if_neg (by omega), if_neg (by omega)]
    simp only [decide_eq_true_eq, mul_zero]
    omega
  · rw [if_pos (by omega)]
    simp only [decide_eq_true_eq]
    have e1 := lt_mul_iff_tdiv_lt (M := repMax w) (l := l) (r := r) hmax hr
    have e2 := mul_lt_iff_lt_tdiv (m := repMin w) (l := l) (r := r) hmin hr
    omega

/-- C1: for operands of the same `(Rep, Radix)`, both `a + b` and `a - b` set
the result scale to `max(a.scale, b.scale)`, right-shift the value of the
operand whose scale is smaller by the scale difference in radix `R` (leaving
the other operand's value unchanged), combine the aligned values with `+` or
`-`, and install the resulting pair directly. -/
theorem add_sub_align_to_max_scale (R : Radix) (a b : fixed_point) :
    (fp_add R a b).scale = max a.scale b.scale ∧
    (fp_add R a b).value =
      (if a.scale < b.scale then right_shift R a.value (b.scale - a.scale) else a.value) +
      (if b.scale < a.scale then right_shift R b.value (a.scale - b.scale) else b.value) ∧
    (fp_sub R a b).scale = max a.scale b.scale ∧
    (fp_sub R a b).value =
      (if a.scale < b.scale then right_shift R a.value (b.scale - a.scale) else a.value) -
      (if b.scale < a.scale then right_shift R b.value (a.scale - b.scale) else b.value) := by
  rcases lt_trichotomy a.scale b.scale with h | h | h
  · have h1 : ¬ b.scale < a.scale := lt_asymm h
    simp only [fp_add, fp_sub, fixed_point.ofScaled, gt_iff_lt, if_pos h, if_neg h1,
      shift_of_pos R a.value (b.scale - a.scale) (by omega), max_eq_right h.le]
    refine ⟨?_, ?_, ?_, ?_⟩ <;> first | rfl | trivial
  · simp only [fp_add, fp_sub, fixed_point.ofScaled, gt_iff_lt, h, lt_self_iff_false,
      if_false, max_self]
    refine ⟨?_, ?_, ?_, ?_⟩ <;> first | rfl | trivial
  · have h1 : ¬ a.scale < b.scale := lt_asymm h
    simp only [fp_add, fp_sub, fixed_point.ofScaled, gt_iff_lt, if_pos h, if_neg h1,
      shift_of_pos R b.value (a.scale - b.scale) (by omega), max_eq_left h.le]
    refine ⟨?_, ?_, ?_, ?_⟩ <;> first | rfl | trivial

/-- C2: the product of two operands of the same `(Rep, Radix)` has value
`a.value * b.value` and scale `a.scale + b.scale`, with no rescaling of
either operand. -/
theorem mul_value_scale (R : Radix) (a b : fixed_point) :
    (fp_mul R a b).value = a.value * b.value ∧
    (fp_mul R a b).scale = a.scale + b.scale :=
  ⟨rfl, rfl⟩

/-- Helper: truncating division written as sign times magnitude quotient. -/
theorem tdiv_eq_sign_mul_natAbs (a b : ℤ) :
    a.tdiv b = a.sign * b.sign * ((a.natAbs / b.natAbs : ℕ) : ℤ) := by
  rcases Nat.eq_zero_or_pos a.natAbs with h0 | h0
  · have ha : a = 0 := Int.natAbs_eq_zero.mp h0
    simp [ha]
  rcases Nat.eq_zero_or_pos b.natAbs with h1 | h1
  · have hb : b = 0 := Int.natAbs_eq_zero.mp h1
    simp [hb]
  have sA : ((a.natAbs : ℤ)).sign = 1 := Int.sign_natCast_of_ne_zero (by omega)
  have sB : ((b.natAbs : ℤ)).sign = 1 := Int.sign_natCast_of_ne_zero (by omega)
  have key : ((a.natAbs : ℤ)).tdiv ((b.natAbs : ℤ)) = ((a.natAbs / b.natAbs : ℕ) : ℤ) :=
    (Int.ofNat_tdiv _ _).symm
  rcases Int.natAbs_eq a with ha | ha <;> rcases Int.natAbs_eq b with hb | hb <;>
    rw [ha, hb] <;>
    simp only [Int.tdiv_neg, Int.neg_tdiv, Int.sign_neg, Int.natAbs_neg,
      Int.natAbs_ofNat, key, sA, sB] <;>
    ring

/-- C3: the quotient of two operands of the same `(Rep, Radix)` with nonzero
divisor value has value `a.value / b.value` by integer division truncating
toward zero, and scale `a.scale - b.scale`; in particular `(100, 0) / (3, 0)`
gives `(33, 0)`. -/
theorem div_value_scale (R : Radix) (a b : fixed_point) (h : b.value ≠ 0) :
    (fp_div R a b).value = a.value.tdiv b.value ∧
    (fp_div R a b).value =
      a.value.sign * b.value.sign * ((a.value.natAbs / b.value.natAbs : ℕ) : ℤ) ∧
    (fp_div R a b).scale = a.scale - b.scale ∧
    fp_div R { value := 100, scale := 0 } { value := 3, scale := 0 } =
      { value := 33, scale := 0 } :=
  ⟨rfl, tdiv_eq_sign_mul_natAbs a.value b.value, rfl, rfl⟩

/-- C3 witness: the division theorem instantiated at `(100, 0) / (3, 0)`. -/
theorem div_value_scale_witness :
    (fp_div Radix.BASE_10 { value := 100, scale := 0 } { value := 3, scale := 0 }).value =
      (100 : ℤ).tdiv 3 ∧
    (fp_div Radix.BASE_10 { value := 100, scale := 0 } { value := 3, scale := 0 }).value =
      (100 : ℤ).sign * (3 : ℤ).sign * (((100 : ℤ).natAbs / (3 : ℤ).natAbs : ℕ) : ℤ) ∧
    (fp_div Radix.BASE_10 { value := 100, scale := 0 } { value := 3, scale := 0 }).scale =
      (0 : ℤ) - 0 ∧
    fp_div Radix.BASE_10 { value := 100, scale := 0 } { value := 3, scale := 0 } =
      { value := 33, scale := 0 } :=
  div_value_scale Radix.BASE_10 { value := 100, scale := 0 } { value := 3, scale := 0 }
    (by decide)

/-- C4: on in-range operands of a 32-bit or 64-bit representation, each
overflow predicate is true exactly when the unbounded-integer result lies
outside `[MIN, MAX]`; for division, exactly at `l = MIN`, `r = -1`. -/
theorem overflow_predicates_correct (w : ℕ) (hw : w = 32 ∨ w = 64) (l r : ℤ)
    (hl : repMin w ≤ l ∧ l ≤ repMax w) (hr : repMin w ≤ r ∧ r ≤ repMax w) :
    (addition_overflow w l r = true ↔ (l + r < repMin w ∨ repMax w < l + r)) ∧
    (subtraction_overflow w l r = true ↔ (l - r < repMin w ∨ repMax w < l - r)) ∧
    (multiplication_overflow w l r = true ↔ (l * r < repMin w ∨ repMax w < l * r)) ∧
    (r ≠ 0 → (division_overflow w l r = true ↔ (l = repMin w ∧ r = -1))) :=
  ⟨addition_overflow_correct w l r hl, subtraction_overflow_correct w l r hl,
    multiplication_overflow_correct w l r hl,
    fun _ => by unfold division_overflow; simp⟩

/-- C4 witness: the overflow characterisation at width 32 with
`l = 2147483647`, `r = 1` (addition overflows, the rest do not). -/
theorem overflow_predicates_correct_witness :
    (addition_overflow 32 2147483647 1 = true ↔
      ((2147483647 : ℤ) + 1 < repMin 32 ∨ repMax 32 < 2147483647 + 1)) ∧
    (subtraction_overflow 32 2147483647 1 = true ↔
      ((2147483647 : ℤ) - 1 < repMin 32 ∨ repMax 32 < 2147483647 - 1)) ∧
    (multiplication_overflow 32 2147483647 1 = true ↔
      ((2147483647 : ℤ) * 1 < repMin 32 ∨ repMax 32 < 2147483647 * 1)) ∧
    ((1 : ℤ) ≠ 0 → (division_overflow 32 2147483647 1 = true ↔
      ((2147483647 : ℤ) = repMin 32 ∧ (1 : ℤ) = -1))) :=
  overflow_predicates_correct 32 (Or.inl rfl) 2147483647 1 (by decide) (by decide)

/-- Helper: the radix is nonzero as a rational. -/
theorem radix_cast_ne_zero (R : Radix) : ((R.toInt : ℚ)) ≠ 0 := by
  cases R <;> norm_num [Radix.toInt]

/-- Helper: the f64 conversion recovers exactly the represented rational
`value * Radix^scale` in the exact-arithmetic model of binary64. -/
theorem to_f64_eq_toRat (R : Radix) (x : fixed_point) : to_f64 R x = toRat R x := by
  have hR : ((R.toInt : ℚ)) ≠ 0 := radix_cast_ne_zero R
  unfold to_f64 shift_f64 toRat
  rcases lt_trichotomy x.scale 0 with h | h | h
  · rw [if_neg (by omega), if_pos (by omega)]
    set n := (-x.scale).toNat with hn
    have hx : x.scale = -(n : ℤ) := by omega
    rw [div_eq_mul_inv, hx, zpow_neg, zpow_natCast]
  · simp [h]
  · rw [if_neg (by omega), if_neg (by omega), neg_neg]
    set n := x.scale.toNat with hn
    have hx : x.scale = (n : ℤ) := by omega
    rw [hx, zpow_natCast]

/-- C5 (counterexample): at `v = 1`, `s = 1` (inside the claimed ranges) the
scalar constructor truncates `1 / 10` to zero, so the f64 conversion yields
`0`, which differs from the claimed `v * R^s = 10` by far more than one ulp
of any binary64 value of that magnitude. -/
theorem roundtrip_f64_counterexample :
    ((-9 : ℤ) ≤ 1 ∧ (1 : ℤ) ≤ 9) ∧
    to_f64 Radix.BASE_10 (fixed_point.ofValue Radix.BASE_10 1 1) = 0 ∧
    ¬ (|to_f64 Radix.BASE_10 (fixed_point.ofValue Radix.BASE_10 1 1) -
        (1 : ℚ) * (10 : ℚ) ^ (1 : ℤ)| ≤ ulpBound ((1 : ℚ) * (10 : ℚ) ^ (1 : ℤ))) := by
  have h1 : shift Radix.BASE_10 1 1 = 0 := by decide
  have h0 : to_f64 Radix.BASE_10 (fixed_point.ofValue Radix.BASE_10 1 1) = 0 := by
    simp [to_f64, fixed_point.ofValue, h1, shift_f64]
  refine ⟨by norm_num, h0, ?_⟩
  rw [h0]
  norm_num [ulpBound]

/-- C5 (amended): for every representable `v` and scale `s` in `[-9, 9]`,
converting `FixedPoint(v * R^|s|, 0)` back to `Rep` gives exactly
`v * R^|s|`; converting `FixedPoint(v, s)` to f64 gives exactly the
represented rational `value * R^scale` of the constructed object (in the
exact-arithmetic model of binary64), which equals `v` itself whenever
`s ≤ 0` — not `v * R^s`. -/
theorem roundtrip_to_rep_and_f64 (R : Radix) (w : ℕ) (hw : w = 32 ∨ w = 64) (v s : ℤ)
    (hv : repMin w ≤ v ∧ v ≤ repMax w) (hs : -9 ≤ s ∧ s ≤ 9) :
    to_rep R (fixed_point.ofValue R (v * R.toInt ^ s.natAbs) 0) = v * R.toInt ^ s.natAbs ∧
    to_f64 R (fixed_point.ofValue R v s) = toRat R (fixed_point.ofValue R v s) ∧
    (s ≤ 0 → to_f64 R (fixed_point.ofValue R v s) = (v : ℚ)) := by
  refine ⟨?_, to_f64_eq_toRat R _, ?_⟩
  · simp [to_rep, fixed_point.ofValue, shift_of_zero]
  · intro hs0
    rw [to_f64_eq_toRat]
    unfold toRat fixed_point.ofValue
    rcases eq_or_lt_of_le hs0 with h | h
    · subst h
      simp [shift_of_zero]
    · rw [shift_of_neg _ _ _ h]
      unfold left_shift
      push_cast
      set n := (-s).toNat with hn
      have hx : s = -(n : ℤ) := by omega
      rw [hx, zpow_neg, zpow_natCast, mul_assoc,
        mul_inv_cancel₀ (pow_ne_zero n (radix_cast_ne_zero R)), mul_one]

/-- C5 witness: the amended round-trip theorem instantiated at radix 10,
width 32, `v = 7`, `s = -2`. -/
theorem roundtrip_to_rep_and_f64_witness :
    (to_rep Radix.BASE_10
        (fixed_point.ofValue Radix.BASE_10 ((7 : ℤ) * Radix.BASE_10.toInt ^ (-2 : ℤ).natAbs) 0) =
      (7 : ℤ) * Radix.BASE_10.toInt ^ (-2 : ℤ).natAbs) ∧
    (to_f64 Radix.BASE_10 (fixed_point.ofValue Radix.BASE_10 7 (-2)) =
      toRat Radix.BASE_10 (fixed_point.ofValue Radix.BASE_10 7 (-2))) ∧
    ((-2 : ℤ) ≤ 0 → to_f64 Radix.BASE_10 (fixed_point.ofValue Radix.BASE_10 7 (-2)) =
      ((7 : ℤ) : ℚ)) :=
  roundtrip_to_rep_and_f64 Radix.BASE_10 32 (Or.inl rfl) 7 (-2) (by decide) (by decide)

/-- C6 (code evaluation at the failing input): on the `int64_t` operand
`2^63 - 1` at scale `1`, radix 10, the binary64 route the source takes
(`val / std::pow(10, 1)` followed by `static_cast`) produces
`922337203685477632`, while truncating integer division — the arithmetic of
the operand type, which the specification prescribes — produces
`922337203685477580`. -/
theorem right_shift_via_double_diverges :
    right_shift_i64max_by10_via_double = 922337203685477632 ∧
    right_shift Radix.BASE_10 (2 ^ 63 - 1) 1 = 922337203685477580 ∧
    right_shift_i64max_by10_via_double ≠ right_shift Radix.BASE_10 (2 ^ 63 - 1) 1 := by
  refine ⟨by decide, by decide, by decide⟩

/-- C7 (counterexample): pre-incrementing the value `500` at scale `-2`
(radix 10) leaves the scale unchanged but raises the representation value by
`10^2 = 100`, not by `1`: the operand `FixedPoint(1, -2)` is re-shifted by
the scalar constructor to representation value `100`. -/
theorem increment_repr_value_counterexample :
    (fp_increment Radix.BASE_10 { value := 500, scale := -2 }).scale = -2 ∧
    (fp_increment Radix.BASE_10 { value := 500, scale := -2 }).value = 600 ∧
    (fp_increment Radix.BASE_10 { value := 500, scale := -2 }).value ≠ 500 + 1 := by
  refine ⟨rfl, rfl, by decide⟩

/-- C7 (amended): pre-increment leaves the scale unchanged and adds
`shift(1, scale)` to the representation value — that is `R^(-scale)` for
`scale < 0`, exactly `1` only for `scale = 0`, and `0` for `scale > 0`. -/
theorem increment_adds_shifted_one (R : Radix) (x : fixed_point) :
    (fp_increment R x).scale = x.scale ∧
    (fp_increment R x).value = x.value + shift R 1 x.scale := by
  unfold fp_increment fp_add fixed_point.ofValue fixed_point.ofScaled
  simp only [gt_iff_lt, lt_self_iff_false, if_false]
  refine ⟨?_, ?_⟩ <;> first | rfl | trivial

/-- C8: addition and multiplication are commutative: `a + b` and `b + a`
(resp. `a * b` and `b * a`) produce identical `(value, scale)` pairs. -/
theorem add_mul_comm_pairs (R : Radix) (a b : fixed_point) :
    fp_add R a b = fp_add R b a ∧ fp_mul R a b = fp_mul R b a := by
  constructor
  · rcases lt_trichotomy a.scale b.scale with h | h | h
    · simp only [fp_add, fixed_point.ofScaled, gt_iff_lt, if_pos h, if_neg (lt_asymm h)]
      rw [add_comm]
    · simp only [fp_add, fixed_point.ofScaled, gt_iff_lt, h, lt_self_iff_false, if_false]
      rw [add_comm]
    · simp only [fp_add, fixed_point.ofScaled, gt_iff_lt, if_pos h, if_neg (lt_asymm h)]
      rw [add_comm]
  · unfold fp_mul fixed_point.ofScaled
    rw [mul_comm, add_comm]

/-- C9: with `a.scale < b.scale`, `a == b` holds exactly when right-shifting
`a.value` by the scale difference yields `b.value`, so values representing
different rationals can compare equal (witness: `1.23` and `1.2` under
radix 10). -/
theorem eq_lossy_across_scales (R : Radix) (a b : fixed_point) (h : a.scale < b.scale) :
    (fp_eq R a b = true ↔ right_shift R a.value (b.scale - a.scale) = b.value) ∧
    ∃ c d : fixed_point, fp_eq Radix.BASE_10 c d = true ∧
      toRat Radix.BASE_10 c ≠ toRat Radix.BASE_10 d := by
  constructor
  · simp only [fp_eq, gt_iff_lt, if_neg (lt_asymm h), if_pos h,
      shift_of_pos R a.value (b.scale - a.scale) (by omega), beq_iff_eq]
    exact eq_comm
  · refine ⟨{ value := 123, scale := -2 }, { value := 12, scale := -1 }, by decide, ?_⟩
    norm_num [toRat, Radix.toInt]

/-- C9 witness: the lossy-equality theorem instantiated at `(123, -2)` and
`(12, -1)` under radix 10. -/
theorem eq_lossy_across_scales_witness :
    (fp_eq Radix.BASE_10 { value := 123, scale := -2 } { value := 12, scale := -1 } = true ↔
      right_shift Radix.BASE_10 123 ((-1 : ℤ) - (-2 : ℤ)) = 12) ∧
    ∃ c d : fixed_point, fp_eq Radix.BASE_10 c d = true ∧
      toRat Radix.BASE_10 c ≠ toRat Radix.BASE_10 d :=
  eq_lossy_across_scales Radix.BASE_10
    { value := 123, scale := -2 } { value := 12, scale := -1 } (by decide)

/-- C10: the equality operator is reflexive, and comparing `a` with `b`
returns the same boolean as comparing `b` with `a`. -/
theorem eq_refl_and_symm (R : Radix) (x a b : fixed_point) :
    fp_eq R x x = true ∧ fp_eq R a b = fp_eq R b a := by
  constructor
  · simp [fp_eq]
  · rcases lt_trichotomy a.scale b.scale with h | h | h
    · simp only [fp_eq, gt_iff_lt, if_pos h, if_neg (lt_asymm h)]
      rw [Bool.beq_comm]
    · simp only [fp_eq, gt_iff_lt, h, lt_self_iff_false, if_false]
      rw [Bool.beq_comm]
    · simp only [fp_eq, gt_iff_lt, if_pos h, if_neg (lt_asymm h)]
      rw [Bool.beq_comm]

end cudf
